import Mathlib

/-!
Shallow embedding of the `cache` Go package (cache.go): an in-process
key/value cache with time-based expiry and perpetual (auto-regenerating)
entries, plus a background sweep that runs on each ticker tick.

Modelling conventions:
* Go `interface{}` values are `Option γ`, with `none` standing for the Go
  `nil` value. Keys are an arbitrary type `κ` with decidable equality
  (Go keys must be comparable).
* `time.Time` / `UnixNano` timestamps and `time.Duration` are `Int`
  (nanoseconds); `time.Now()` is passed in explicitly as a `now` argument.
* A `ValueGenerator` (`func() interface{}`) may return a different value on
  each call; it is modelled as `Nat → Option γ` indexed by the number of
  calls made so far, and each entry carries a call counter `calls`
  (pure bookkeeping, no Go counterpart).
* The Go struct field `fn ValueGenerator` is a nilable function value,
  modelled as `Option (Nat → Option γ)` with `none` for the Go `nil` func.
  The field `lifetime time.Duration` is `Option Int`: `none` models the
  field left at its zero value by the composite literal (as in `Store`),
  `some d` models the field explicitly set (as in `StorePerpetual`); a Go
  read of the unset field sees the zero value, rendered as `getD 0`.
* The entry map `map[interface{}]*CacheEntry` is an association list with
  unique keys; the background sweep processes each entry independently, so
  one pass is a `filterMap` over the list.
* The mutex discipline of each function is modelled separately as its list
  of primitive events (`Ev`), read off the source line by line, and a
  non-reentrant mutex semantics `runMutex` over such traces.
-/

namespace GoCache

/-- One cache entry, after Go struct `CacheEntry` in cache.go. -/
structure CacheEntry (γ : Type) where
  /-- Field `value interface{}`: the current cached payload (`none` = Go nil). -/
  value : Option γ
  /-- Field `expiry time.Time`, as a UnixNano timestamp. -/
  expiry : Int
  /-- Field `perpetual bool`: discriminates the two entry kinds. -/
  perpetual : Bool
  /-- Field `fn ValueGenerator`: nilable generator function; `none` = Go nil. -/
  fn : Option (Nat → Option γ)
  /-- bookkeeping: how many times `fn` has been called so far. -/
  calls : Nat
  /-- Field `lifetime time.Duration`; `none` models the zero value left by a
  composite literal that omits the field. -/
  lifetime : Option Int

/-- Calling a possibly-nil generator at call index `n`. Go would panic on a
nil func; the total model returns `none` (this branch is only reached for
entries whose invariant is broken). -/
def callGen {γ : Type} (fn : Option (Nat → Option γ)) (n : Nat) : Option γ :=
  (fn.getD (fun _ => none)) n

/-- Lookup in the entry map, after Go `c.entries[key]` (whose result is a
nil pointer, here `none`, when the key is absent). -/
def mapLookup {κ α : Type} [DecidableEq κ] : List (κ × α) → κ → Option α
  | [], _ => none
  | (k', v) :: rest, k => if k' = k then some v else mapLookup rest k

/-- Removal from the entry map, after Go `delete(c.entries, key)`. -/
def mapErase {κ α : Type} [DecidableEq κ] : List (κ × α) → κ → List (κ × α)
  | [], _ => []
  | (k', v) :: rest, k =>
    if k' = k then mapErase rest k else (k', v) :: mapErase rest k

/-- Insertion into the entry map, after Go `c.entries[key] = entry`
(replaces any previous binding of the key). -/
def mapInsert {κ α : Type} [DecidableEq κ] (l : List (κ × α)) (k : κ) (v : α) :
    List (κ × α) :=
  (k, v) :: mapErase l k

/-- The cache state, after Go struct `Cache`: just the entry map (the
mutex, ticker and quit channel carry no map state; the mutex discipline is
modelled by the event traces below). -/
structure Cache (κ γ : Type) where
  entries : List (κ × CacheEntry γ)

/-- Go `NewCache` starts from an empty entry map. -/
def emptyCache {κ γ : Type} : Cache κ γ := ⟨[]⟩

/-- Go `Store(key, value, lifetime)` at time `now`: inserts a non-perpetual
entry with `expiry = now + lifetime`; the literal leaves `fn` and
`lifetime` at their zero values. -/
def Cache.Store {κ γ : Type} [DecidableEq κ] (c : Cache κ γ) (key : κ)
    (value : Option γ) (lifetime now : Int) : Cache κ γ :=
  let entry : CacheEntry γ :=
    { value := value, expiry := now + lifetime, perpetual := false,
      fn := none, calls := 0, lifetime := none }
  ⟨mapInsert c.entries key entry⟩

/-- Go `StorePerpetual(key, fn, lifetime)` at time `now`: builds a
perpetual entry, sets `entry.value = fn()` (the first call, index 0), then
inserts it. -/
def Cache.StorePerpetual {κ γ : Type} [DecidableEq κ] (c : Cache κ γ)
    (key : κ) (fn : Nat → Option γ) (lifetime now : Int) : Cache κ γ :=
  let entry : CacheEntry γ :=
    { value := fn 0, expiry := now + lifetime, perpetual := true,
      fn := some fn, calls := 1, lifetime := some lifetime }
  ⟨mapInsert c.entries key entry⟩

/-- Go `Delete(key)`: `delete(c.entries, key)`. -/
def Cache.Delete {κ γ : Type} [DecidableEq κ] (c : Cache κ γ) (key : κ) :
    Cache κ γ :=
  ⟨mapErase c.entries key⟩

/-- Go `Get(key)`: looks up the entry; a nil entry pointer yields nil,
otherwise the stored value is returned. -/
def Cache.Get {κ γ : Type} [DecidableEq κ] (c : Cache κ γ) (key : κ) :
    Option γ :=
  match mapLookup c.entries key with
  | none => none
  | some entry => entry.value

/-- The perpetual branch of Go `expire`: evaluate the generator for a new
value, store it, and recompute `expiry = now + lifetime`. -/
def expireEntry {γ : Type} (now : Int) (e : CacheEntry γ) : CacheEntry γ :=
  { e with value := callGen e.fn e.calls, calls := e.calls + 1,
           expiry := now + e.lifetime.getD 0 }

/-- One entry of the sweep loop in `startTimer`, as `expire` intends it:
an entry with `expiry <= now` is regenerated in place if perpetual and
deleted otherwise; an unexpired entry is left untouched. This is the
per-entry transformation only; whether the running task ever completes it
is settled by `tickRun` below, which shows the real tick blocks at the
first expired perpetual entry. -/
def sweepStep {κ γ : Type} (now : Int) (p : κ × CacheEntry γ) :
    Option (κ × CacheEntry γ) :=
  if p.2.expiry ≤ now then
    if p.2.perpetual then some (p.1, expireEntry now p.2) else none
  else some p

/-- Idealized completed tick of the background task: every entry processed
per `sweepStep`. The source tick only realizes this when it meets no
expired perpetual entry (see `tickRun` and the lemma relating the two);
it is used below solely for properties that a blocked partial tick
cannot violate either, such as never inserting a key and preserving entry
shape. -/
def Cache.sweep {κ γ : Type} (c : Cache κ γ) (now : Int) : Cache κ γ :=
  ⟨c.entries.filterMap (sweepStep now)⟩

/-- A sequence of sweeps at the given tick times. -/
def Cache.sweepMany {κ γ : Type} (c : Cache κ γ) (ts : List Int) :
    Cache κ γ :=
  ts.foldl Cache.sweep c

/-- Outcome of one real tick of the background task: either the pass over
the entries completes, or the sweeping task blocks forever mid-pass
(self-deadlock inside `expire`) and the listed entries are what the map
holds from then on, with the mutex never released. -/
inductive TickResult (κ γ : Type) where
  | done (entries : List (κ × CacheEntry γ))
  | deadlock (entries : List (κ × CacheEntry γ))

/-- Keep an entry and continue with the outcome of the rest of the pass. -/
def TickResult.keep {κ γ : Type} (p : κ × CacheEntry γ) :
    TickResult κ γ → TickResult κ γ
  | .done l => .done (p :: l)
  | .deadlock l => .deadlock (p :: l)

/-- Faithful state-level model of one tick of `startTimer`, matching the
trace model: the task holds the mutex while iterating; an expired
non-perpetual entry is deleted and the pass continues; at the first
expired perpetual entry (in iteration order — Go map order is unspecified,
but every order meets some expired perpetual entry when one exists)
`expire` computes `nv := entry.fn()` and then blocks forever re-acquiring
the held mutex, before `entry.value = nv` runs: the pass stops with that
entry and all remaining entries unchanged and `nv` never stored; with no
expired perpetual entry the pass completes. -/
def tickRun {κ γ : Type} (now : Int) :
    List (κ × CacheEntry γ) → TickResult κ γ
  | [] => .done []
  | (k, e) :: rest =>
    if e.expiry ≤ now then
      if e.perpetual then .deadlock ((k, e) :: rest)
      else tickRun now rest
    else TickResult.keep (k, e) (tickRun now rest)

/-- One public operation on the cache, for reasoning about reachable
states. -/
inductive Op (κ γ : Type) where
  | store (key : κ) (value : Option γ) (lifetime now : Int)
  | storePerpetual (key : κ) (fn : Nat → Option γ) (lifetime now : Int)
  | delete (key : κ)
  | sweep (now : Int)

/-- The key an operation stores under, when it is a store. -/
def Op.storedKey {κ γ : Type} : Op κ γ → Option κ
  | .store k _ _ _ => some k
  | .storePerpetual k _ _ _ => some k
  | .delete _ => none
  | .sweep _ => none

/-- Apply one operation to a cache state. -/
def Cache.applyOp {κ γ : Type} [DecidableEq κ] (c : Cache κ γ) :
    Op κ γ → Cache κ γ
  | .store k v d now => c.Store k v d now
  | .storePerpetual k fn d now => c.StorePerpetual k fn d now
  | .delete k => c.Delete k
  | .sweep now => c.sweep now

/-- Apply a sequence of operations. -/
def Cache.runOps {κ γ : Type} [DecidableEq κ] (c : Cache κ γ)
    (ops : List (Op κ γ)) : Cache κ γ :=
  ops.foldl Cache.applyOp c

/-! ## Lock-discipline traces

Each Go function is rendered as the sequence of primitive events it
performs, read off the source in order. -/

/-- Primitive events of a cache operation. -/
inductive Ev where
  | lock | unlock | mapRead | mapWrite | mapDelete | genCall
  deriving DecidableEq, Repr

/-- Events of `Store`: `c.Lock(); c.entries[key] = entry; c.Unlock()`. -/
def storeTrace : List Ev := [.lock, .mapWrite, .unlock]

/-- Events of `StorePerpetual`: `entry.value = fn(); c.Lock();
c.entries[key] = entry; c.Unlock()`. -/
def storePerpetualTrace : List Ev := [.genCall, .lock, .mapWrite, .unlock]

/-- Events of `Delete`: just `delete(c.entries, key)` — the source takes
no lock here. -/
def deleteTrace : List Ev := [.mapDelete]

/-- Events of `Get`: `c.Lock(); entry := c.entries[key]; c.Unlock()`. -/
def getTrace : List Ev := [.lock, .mapRead, .unlock]

/-- Events of `expire(key, entry)`: the perpetual branch calls the
generator, then `c.Lock()`, swaps value and expiry, `c.Unlock()`; the
other branch is `c.Delete(key)`. -/
def expireTrace {γ : Type} (e : CacheEntry γ) : List Ev :=
  if e.perpetual then [.genCall, .lock, .mapWrite, .mapWrite, .unlock]
  else deleteTrace

/-- Events of one tick of the background task: `c.Lock()`, then for each
entry a read of its expiry and, if past expiry, the events of `expire`,
then `c.Unlock()`. -/
def tickTrace {κ γ : Type} (c : Cache κ γ) (now : Int) : List Ev :=
  [Ev.lock] ++
    (c.entries.map (fun p =>
      Ev.mapRead :: (if p.2.expiry ≤ now then expireTrace p.2 else []))).flatten
    ++ [Ev.unlock]

/-- Run a trace against a non-reentrant mutex (`sync.Mutex`), starting
from lock state `locked`. Result `none` is a fault: `Lock` while the same
task already holds the mutex blocks forever (self-deadlock), and `Unlock`
of an unlocked mutex is a Go runtime panic. -/
def runMutex : Bool → List Ev → Option Bool
  | locked, [] => some locked
  | locked, e :: rest =>
    match e with
    | .lock => if locked then none else runMutex true rest
    | .unlock => if locked then runMutex false rest else none
    | _ => runMutex locked rest

/-- The entry-shape invariant of the spec: a perpetual entry has both a
generator and a lifetime set, a non-perpetual entry has neither. -/
def EntryWF {γ : Type} (e : CacheEntry γ) : Prop :=
  (e.perpetual = true → e.fn.isSome ∧ e.lifetime.isSome) ∧
  (e.perpetual = false → e.fn = none ∧ e.lifetime = none)

/-- All entries of the cache satisfy the entry-shape invariant. -/
def Cache.WF {κ γ : Type} (c : Cache κ γ) : Prop :=
  ∀ p ∈ c.entries, EntryWF p.2

/-- A concrete generator for instantiating the theorems. -/
def exGen : Nat → Option Nat := fun n => some (n + 3)

/-- A concrete perpetual entry, already past expiry at any time `≥ 0`. -/
def exPerpetualEntry : CacheEntry Nat :=
  { value := some 3, expiry := 0, perpetual := true, fn := some exGen,
    calls := 1, lifetime := some 4 }

/-- A concrete cache holding one perpetual entry under key 1. -/
def exPCache : Cache Nat Nat := ⟨[(1, exPerpetualEntry)]⟩

/-- A concrete non-perpetual entry, also already past expiry at time 0. -/
def exNPEntry : CacheEntry Nat :=
  { value := some 7, expiry := 0, perpetual := false, fn := none,
    calls := 0, lifetime := none }

/-- A concrete cache with an expired perpetual entry under key 1 followed
by an expired non-perpetual entry under key 2. -/
def exPCache2 : Cache Nat Nat := ⟨[(1, exPerpetualEntry), (2, exNPEntry)]⟩

/-! ## Supporting lemmas about the map operations -/

theorem mapLookup_mapErase_self {κ α : Type} [DecidableEq κ]
    (l : List (κ × α)) (k : κ) : mapLookup (mapErase l k) k = none := by
  induction l with
  | nil => rfl
  | cons p rest ih =>
    obtain ⟨k₀, v⟩ := p
    by_cases h0 : k₀ = k
    · simp [mapErase, h0, ih]
    · simp [mapErase, mapLookup, h0, ih]

theorem mapLookup_mapErase_ne {κ α : Type} [DecidableEq κ]
    (l : List (κ × α)) (k k' : κ) (h : k' ≠ k) :
    mapLookup (mapErase l k) k' = mapLookup l k' := by
  induction l with
  | nil => rfl
  | cons p rest ih =>
    obtain ⟨k₀, v⟩ := p
    by_cases h0 : k₀ = k
    · subst h0
      have hne : ¬k₀ = k' := fun hh => h hh.symm
      simp [mapErase, mapLookup, hne, ih]
    · simp [mapErase, mapLookup, h0, ih]

theorem mapLookup_mapInsert_self {κ α : Type} [DecidableEq κ]
    (l : List (κ × α)) (k : κ) (v : α) :
    mapLookup (mapInsert l k v) k = some v := by
  simp [mapInsert, mapLookup]

theorem mapLookup_mapInsert_ne {κ α : Type} [DecidableEq κ]
    (l : List (κ × α)) (k k' : κ) (v : α) (h : k' ≠ k) :
    mapLookup (mapInsert l k v) k' = mapLookup l k' := by
  have hne : ¬k = k' := fun hh => h hh.symm
  simp [mapInsert, mapLookup, hne, mapLookup_mapErase_ne l k k' h]

theorem mapErase_sublist {κ α : Type} [DecidableEq κ]
    (l : List (κ × α)) (k : κ) : List.Sublist (mapErase l k) l := by
  induction l with
  | nil => exact List.Sublist.refl _
  | cons p rest ih =>
    obtain ⟨k₀, v⟩ := p
    by_cases h0 : k₀ = k
    · simpa [mapErase, h0] using ih.cons (k₀, v)
    · simpa [mapErase, h0] using ih.cons₂ (k₀, v)

theorem mapLookup_eq_none_iff {κ α : Type} [DecidableEq κ]
    (l : List (κ × α)) (k : κ) :
    mapLookup l k = none ↔ k ∉ l.map Prod.fst := by
  induction l with
  | nil => simp [mapLookup]
  | cons p rest ih =>
    obtain ⟨k₀, v⟩ := p
    by_cases h0 : k₀ = k
    · simp [mapLookup, h0]
    · rw [show mapLookup ((k₀, v) :: rest) k =
        (if k₀ = k then some v else mapLookup rest k) from rfl,
        if_neg h0, ih]
      simp only [List.map_cons, List.mem_cons, not_or]
      exact (and_iff_right (fun hh => h0 hh.symm)).symm

theorem sweepStep_key {κ γ : Type} (now : Int) (p q : κ × CacheEntry γ)
    (h : sweepStep now p = some q) : q.1 = p.1 := by
  by_cases h1 : p.2.expiry ≤ now
  · by_cases h2 : p.2.perpetual
    · simp [sweepStep, h1, h2] at h
      rw [← h]
    · simp [sweepStep, h1, h2] at h
  · simp [sweepStep, h1] at h
    rw [← h]

theorem keys_filterMap_sweepStep_sublist {κ γ : Type} (now : Int)
    (l : List (κ × CacheEntry γ)) :
    List.Sublist ((l.filterMap (sweepStep now)).map Prod.fst)
      (l.map Prod.fst) := by
  induction l with
  | nil => simp
  | cons p rest ih =>
    cases hs : sweepStep now p with
    | none =>
      simp only [List.filterMap_cons, hs, List.map_cons]
      exact ih.cons _
    | some q =>
      have hq : q.1 = p.1 := sweepStep_key now p q hs
      simp only [List.filterMap_cons, hs, List.map_cons, hq]
      exact ih.cons₂ _

theorem Get_eq_none_of_lookup_none {κ γ : Type} [DecidableEq κ]
    (c : Cache κ γ) (k : κ) (h : mapLookup c.entries k = none) :
    c.Get k = none := by
  simp [Cache.Get, h]

theorem lookup_none_sweep {κ γ : Type} [DecidableEq κ] (c : Cache κ γ)
    (now : Int) (k : κ) (h : mapLookup c.entries k = none) :
    mapLookup (c.sweep now).entries k = none := by
  rw [mapLookup_eq_none_iff] at h ⊢
  intro hm
  exact h ((keys_filterMap_sweepStep_sublist now c.entries).subset hm)

theorem lookup_none_sweepMany {κ γ : Type} [DecidableEq κ]
    (ts : List Int) (c : Cache κ γ) (k : κ)
    (h : mapLookup c.entries k = none) :
    mapLookup (c.sweepMany ts).entries k = none := by
  induction ts generalizing c with
  | nil => exact h
  | cons t rest ih => exact ih (c.sweep t) (lookup_none_sweep c t k h)

theorem entryWF_expireEntry {γ : Type} (now : Int) (e : CacheEntry γ)
    (h : EntryWF e) : EntryWF (expireEntry now e) := by
  simpa [EntryWF, expireEntry] using h

/-- The real tick realizes the idealized completed sweep exactly when it
meets no entry that is both past expiry and perpetual; the deadlock path
is the only divergence between `tickRun` and `Cache.sweep`. -/
theorem tickRun_eq_sweep_of_no_expired_perpetual {κ γ : Type} (now : Int)
    (l : List (κ × CacheEntry γ))
    (h : ∀ p ∈ l, p.2.expiry ≤ now → p.2.perpetual = false) :
    tickRun now l = TickResult.done (l.filterMap (sweepStep now)) := by
  induction l with
  | nil => rfl
  | cons p rest ih =>
    obtain ⟨k, e⟩ := p
    have hrest : ∀ q ∈ rest, q.2.expiry ≤ now → q.2.perpetual = false :=
      fun q hq => h q (List.mem_cons_of_mem _ hq)
    by_cases h1 : e.expiry ≤ now
    · have h2 : e.perpetual = false :=
        h (k, e) (List.mem_cons_self _ _) h1
      simp [tickRun, h1, h2, List.filterMap_cons, sweepStep, ih hrest]
    · simp [tickRun, h1, List.filterMap_cons, sweepStep, ih hrest,
        TickResult.keep]

theorem mapErase_eq_of_lookup_none {κ α : Type} [DecidableEq κ]
    (l : List (κ × α)) (k : κ) (h : mapLookup l k = none) :
    mapErase l k = l := by
  induction l with
  | nil => rfl
  | cons p rest ih =>
    obtain ⟨k₀, v⟩ := p
    by_cases h0 : k₀ = k
    · rw [show mapLookup ((k₀, v) :: rest) k =
        (if k₀ = k then some v else mapLookup rest k) from rfl,
        if_pos h0] at h
      exact absurd h (by simp)
    · rw [show mapLookup ((k₀, v) :: rest) k =
        (if k₀ = k then some v else mapLookup rest k) from rfl,
        if_neg h0] at h
      simp [mapErase, h0, ih h]

theorem lookup_Store_self {κ γ : Type} [DecidableEq κ] (c : Cache κ γ)
    (k : κ) (v : Option γ) (d now : Int) :
    mapLookup (c.Store k v d now).entries k =
      some { value := v, expiry := now + d, perpetual := false,
             fn := none, calls := 0, lifetime := none } :=
  mapLookup_mapInsert_self c.entries k _

theorem lookup_Store_ne {κ γ : Type} [DecidableEq κ] (c : Cache κ γ)
    (k k' : κ) (v : Option γ) (d now : Int) (h : k' ≠ k) :
    mapLookup (c.Store k v d now).entries k' = mapLookup c.entries k' :=
  mapLookup_mapInsert_ne c.entries k k' _ h

theorem lookup_StorePerpetual_self {κ γ : Type} [DecidableEq κ]
    (c : Cache κ γ) (k : κ) (fn : Nat → Option γ) (d now : Int) :
    mapLookup (c.StorePerpetual k fn d now).entries k =
      some { value := fn 0, expiry := now + d, perpetual := true,
             fn := some fn, calls := 1, lifetime := some d } :=
  mapLookup_mapInsert_self c.entries k _

theorem lookup_StorePerpetual_ne {κ γ : Type} [DecidableEq κ]
    (c : Cache κ γ) (k k' : κ) (fn : Nat → Option γ) (d now : Int)
    (h : k' ≠ k) :
    mapLookup (c.StorePerpetual k fn d now).entries k' =
      mapLookup c.entries k' :=
  mapLookup_mapInsert_ne c.entries k k' _ h

theorem lookup_none_applyOp {κ γ : Type} [DecidableEq κ] (c : Cache κ γ)
    (op : Op κ γ) (k : κ) (hc : mapLookup c.entries k = none)
    (hop : op.storedKey ≠ some k) :
    mapLookup (c.applyOp op).entries k = none := by
  cases op with
  | store k' v d n =>
    have hk : k ≠ k' := fun hh => hop (by simp [Op.storedKey, hh])
    exact (lookup_Store_ne c k' k v d n hk).trans hc
  | storePerpetual k' fn d n =>
    have hk : k ≠ k' := fun hh => hop (by simp [Op.storedKey, hh])
    exact (lookup_StorePerpetual_ne c k' k fn d n hk).trans hc
  | delete k' =>
    by_cases hk : k = k'
    · subst hk
      exact mapLookup_mapErase_self c.entries k
    · exact (mapLookup_mapErase_ne c.entries k' k hk).trans hc
  | sweep n => exact lookup_none_sweep c n k hc

theorem lookup_none_runOps {κ γ : Type} [DecidableEq κ]
    (ops : List (Op κ γ)) (c : Cache κ γ) (k : κ)
    (hc : mapLookup c.entries k = none)
    (hops : ∀ op ∈ ops, op.storedKey ≠ some k) :
    mapLookup (c.runOps ops).entries k = none := by
  induction ops generalizing c with
  | nil => exact hc
  | cons op rest ih =>
    exact ih (c.applyOp op)
      (lookup_none_applyOp c op k hc (hops op (List.mem_cons_self op rest)))
      (fun o ho => hops o (List.mem_cons_of_mem op ho))

/-! ## The claims -/

/-- C1: the claim says the sweep regeneration step never tries to acquire
the non-reentrant cache lock while the sweep task already holds it. The
code violates this: on a tick sweeping a cache with one expired perpetual
entry, the tick trace acquires the lock and `expire` then re-acquires it,
so running the trace against the non-reentrant mutex from the unlocked
state faults (self-deadlock, result `none`). -/
theorem sweep_regeneration_self_deadlock :
    runMutex false (tickTrace exPCache 0) = none := by
  rfl

/-- C2: the claim says `Delete` removes under the cache lock like every
other map mutation. The code violates this: the `Delete` trace contains no
lock acquisition at all, while `Store`, `Get` and `StorePerpetual` all
lock. -/
theorem delete_bypasses_lock :
    Ev.lock ∉ deleteTrace ∧ Ev.lock ∈ storeTrace ∧ Ev.lock ∈ getTrace ∧
      Ev.lock ∈ storePerpetualTrace := by
  decide

/-- C3: the claim says a tick regenerates every expired perpetual entry
(fresh generator value, expiry reset to `now + lifetime`) and removes
every expired non-perpetual entry. The code violates this: the faithful
tick over a cache with an expired perpetual entry at key 1 followed by an
expired non-perpetual entry at key 2 blocks forever at the mutex
re-acquisition inside `expire`, before the value swap, leaving both
entries exactly as they were — in particular key 1 keeps its stale value
and old expiry instead of the regenerated entry the claim describes, and
key 2 is never removed. -/
theorem tick_deadlocks_before_processing :
    tickRun 0 exPCache2.entries =
      TickResult.deadlock [(1, exPerpetualEntry), (2, exNPEntry)] ∧
    exPerpetualEntry.value ≠ (expireEntry 0 exPerpetualEntry).value ∧
    exPerpetualEntry.expiry ≠ (expireEntry 0 exPerpetualEntry).expiry :=
  ⟨rfl, by decide, by decide⟩

/-- C4: the claim says that once a perpetual entry's lifetime has elapsed,
`Get` returns the result of a fresh generator call. The code violates
this: the tick over the cache with the expired perpetual entry blocks
forever with the mutex held and the swap undone (the entry keeps its
stale value, different from the fresh generator result the claim
promises), and a `Get` arriving while the mutex is still held faults at
its own lock acquisition instead of returning anything. -/
theorem get_blocks_after_perpetual_expiry :
    tickRun 0 exPCache.entries =
      TickResult.deadlock [(1, exPerpetualEntry)] ∧
    runMutex true getTrace = none ∧
    exPerpetualEntry.value ≠ (expireEntry 0 exPerpetualEntry).value :=
  ⟨rfl, rfl, by decide⟩

/-- C5: `StorePerpetual` calls the generator exactly once, before the lock
is acquired (the trace events before the first lock are exactly one
generator call), inserts a perpetual entry holding that first result with
`expiry = now + lifetime`, and an immediate `Get` returns that first
result. -/
theorem storePerpetual_generator_once_before_lock {κ γ : Type}
    [DecidableEq κ] (c : Cache κ γ) (k : κ) (fn : Nat → Option γ)
    (d now : Int) :
    storePerpetualTrace.count Ev.genCall = 1 ∧
    storePerpetualTrace.takeWhile (fun e => e != Ev.lock) =
      [Ev.genCall] ∧
    mapLookup (c.StorePerpetual k fn d now).entries k =
      some { value := fn 0, expiry := now + d, perpetual := true,
             fn := some fn, calls := 1, lifetime := some d } ∧
    (c.StorePerpetual k fn d now).Get k = fn 0 := by
  refine ⟨by decide, by decide,
    lookup_StorePerpetual_self c k fn d now, ?_⟩
  unfold Cache.Get
  rw [lookup_StorePerpetual_self c k fn d now]

/-- C6: `Store` with positive lifetime inserts a fresh non-perpetual entry
with `expiry = now + d` (fully determined by the arguments, so any prior
entry under the key is simply overwritten with no merge), an immediate
`Get` returns the value, and other keys are unaffected. -/
theorem store_inserts_overwrites {κ γ : Type} [DecidableEq κ]
    (c : Cache κ γ) (k : κ) (v : Option γ) (d now : Int) (hd : 0 < d) :
    mapLookup (c.Store k v d now).entries k =
      some { value := v, expiry := now + d, perpetual := false,
             fn := none, calls := 0, lifetime := none } ∧
    (c.Store k v d now).Get k = v ∧
    (∀ k', k' ≠ k →
      mapLookup (c.Store k v d now).entries k' = mapLookup c.entries k') := by
  refine ⟨lookup_Store_self c k v d now, ?_,
    fun k' hk => lookup_Store_ne c k k' v d now hk⟩
  unfold Cache.Get
  rw [lookup_Store_self c k v d now]

/-- C6 witness: storing over the concrete perpetual entry replaces it
outright. -/
theorem store_inserts_overwrites_witness :
    (0 : Int) < 2 ∧
      (exPCache.Store 1 (some 9) 2 0).Get 1 = some 9 :=
  ⟨by decide, (store_inserts_overwrites exPCache 1 (some 9) 2 0
    (by decide)).2.1⟩

/-- C7: `Delete` removes the entry unconditionally, is a no-op when the
key is absent, makes a subsequent `Get` return absent, and no sequence of
later sweeps brings the key back. -/
theorem delete_removes_unconditionally {κ γ : Type} [DecidableEq κ]
    (c : Cache κ γ) (k : κ) :
    mapLookup (c.Delete k).entries k = none ∧
    (c.Delete k).Get k = none ∧
    (mapLookup c.entries k = none → c.Delete k = c) ∧
    (∀ ts : List Int, ((c.Delete k).sweepMany ts).Get k = none) := by
  refine ⟨mapLookup_mapErase_self c.entries k,
    Get_eq_none_of_lookup_none _ k (mapLookup_mapErase_self c.entries k),
    ?_, fun ts => Get_eq_none_of_lookup_none _ k
      (lookup_none_sweepMany ts _ k (mapLookup_mapErase_self c.entries k))⟩
  intro h
  cases c with
  | mk l => exact congrArg Cache.mk (mapErase_eq_of_lookup_none l k h)

/-- C7 witness: deleting the concrete perpetual entry keeps the key absent
through later sweeps, and deleting from an empty cache changes nothing. -/
theorem delete_removes_unconditionally_witness :
    ((exPCache.Delete 1).sweepMany [3, 4]).Get 1 = none ∧
      (emptyCache : Cache Nat Nat).Delete 1 = emptyCache :=
  ⟨(delete_removes_unconditionally exPCache 1).2.2.2 [3, 4],
    (delete_removes_unconditionally emptyCache 1).2.2.1 rfl⟩

/-- C8: `Get` is total and never errs: it returns the stored value when
the key is present and `none` otherwise; in particular, after any sequence
of operations none of which stores under the key, `Get` returns absent. -/
theorem get_total_never_stored_miss {κ γ : Type} [DecidableEq κ]
    (c : Cache κ γ) (k : κ) :
    (∀ e, mapLookup c.entries k = some e → c.Get k = e.value) ∧
    (mapLookup c.entries k = none → c.Get k = none) ∧
    (∀ ops : List (Op κ γ), (∀ op ∈ ops, op.storedKey ≠ some k) →
      ((emptyCache : Cache κ γ).runOps ops).Get k = none) := by
  refine ⟨fun e he => ?_, fun h => Get_eq_none_of_lookup_none c k h,
    fun ops hops => Get_eq_none_of_lookup_none _ k
      (lookup_none_runOps ops emptyCache k rfl hops)⟩
  simp [Cache.Get, he]

/-- C8 witness: a key never stored stays absent through deletes, sweeps
and stores under other keys. -/
theorem get_total_never_stored_miss_witness :
    ((emptyCache : Cache Nat Nat).runOps
      [Op.delete 3, Op.sweep 5, Op.store 2 (some 4) 10 0]).Get 1 =
      none :=
  (get_total_never_stored_miss emptyCache 1).2.2
    [Op.delete 3, Op.sweep 5, Op.store 2 (some 4) 10 0] (by decide)

/-- C9: every operation (store, perpetual store, delete, sweep — and `Get`,
which does not change the state) preserves the entry-shape invariant:
perpetual entries have generator and lifetime set, non-perpetual entries
have neither. -/
theorem every_op_preserves_entry_shape {κ γ : Type} [DecidableEq κ]
    (c : Cache κ γ) (op : Op κ γ) (h : c.WF) : (c.applyOp op).WF := by
  cases op with
  | store k v d n =>
    intro p hp
    rcases List.mem_cons.1 hp with hpe | hpe
    · subst hpe
      simp [EntryWF]
    · exact h p ((mapErase_sublist c.entries k).subset hpe)
  | storePerpetual k fn d n =>
    intro p hp
    rcases List.mem_cons.1 hp with hpe | hpe
    · subst hpe
      simp [EntryWF]
    · exact h p ((mapErase_sublist c.entries k).subset hpe)
  | delete k =>
    intro p hp
    exact h p ((mapErase_sublist c.entries k).subset hp)
  | sweep n =>
    intro p hp
    rcases List.mem_filterMap.1 hp with ⟨q, hq, hsq⟩
    have hwf := h q hq
    by_cases h1 : q.2.expiry ≤ n
    · by_cases h2 : q.2.perpetual
      · simp only [sweepStep, if_pos h1, h2, if_true] at hsq
        rw [← Option.some.inj hsq]
        exact entryWF_expireEntry n q.2 hwf
      · simp [sweepStep, h1, h2] at hsq
    · simp only [sweepStep, if_neg h1] at hsq
      rw [← Option.some.inj hsq]
      exact hwf

/-- C9 witness: the invariant holds after a perpetual store on the empty
cache. -/
theorem every_op_preserves_entry_shape_witness :
    ((emptyCache : Cache Nat Nat).applyOp
      (Op.storePerpetual 1 exGen 5 0)).WF :=
  every_op_preserves_entry_shape emptyCache (Op.storePerpetual 1 exGen 5 0)
    (by intro p hp; simp [emptyCache] at hp)

/-- C10: a stored nil value is indistinguishable from a miss: after
storing `nil` under a key, `Get` of that key returns `nil`, the same
result `Get` gives for any key with no entry at all. -/
theorem stored_nil_equals_miss {κ γ : Type} [DecidableEq κ]
    (c c' : Cache κ γ) (k k' : κ) (d now : Int)
    (h : mapLookup c'.entries k' = none) :
    (c.Store k none d now).Get k = none ∧
    (c.Store k none d now).Get k = c'.Get k' := by
  have h1 : (c.Store k none d now).Get k = none := by
    unfold Cache.Get
    rw [lookup_Store_self c k none d now]
  exact ⟨h1, h1.trans (Get_eq_none_of_lookup_none c' k' h).symm⟩

/-- C10 witness: nil stored over the concrete perpetual entry reads back
exactly like the miss on an empty cache. -/
theorem stored_nil_equals_miss_witness :
    (exPCache.Store 1 none 5 0).Get 1 =
      (emptyCache : Cache Nat Nat).Get 2 :=
  (stored_nil_equals_miss exPCache emptyCache 1 2 5 0 rfl).2

end GoCache
